import Mathlib

/-!
Verification development for the `coding_agent` repository.

The development shallowly embeds the two engines of the program:

* the edit application engine (`src/edit_formats.py`, `src/editor.py`):
  search/replace application with its whitespace-normalized fallback,
  unified-diff application, the per-file edit loop and the backup/restore
  machinery; file contents are modelled as `List Char`, the file system as
  an association list from paths to contents;

* the context assembly engine (`src/context.py`): relevance scoring,
  binary-searched context selection, symbol rendering, raw-content context
  building and the mtime-checked context cache.  External effects of the
  Python code (the repository walk of `scan_repository`, the `ast` symbol
  extraction, `get_file_content`, `os.path.getmtime`) are modelled as
  oracle fields of environment structures; everything the claims quantify
  over is translated from the source line by line.
-/

/-! ### Python string primitives (`str.split`, `str.join`, `str.replace`, `in`) -/

/-- Python `s.split(chr(10))` on a string modelled as `List Char`:
always returns at least one (possibly empty) line. -/
def splitNl : List Char → List (List Char)
  | [] => [[]]
  | c :: t =>
    if c = '\n' then [] :: splitNl t
    else
      match splitNl t with
      | [] => [[c]]
      | l :: ls => (c :: l) :: ls

/-- Python `"\n".join(lines)`. -/
def joinNl : List (List Char) → List Char
  | [] => []
  | [l] => l
  | l :: l2 :: ls => l ++ '\n' :: joinNl (l2 :: ls)

/-- Python `sep.join(parts)` for `String` parts. -/
def pyJoin (sep : String) : List String → String
  | [] => ""
  | [x] => x
  | x :: y :: rest => x ++ sep ++ pyJoin sep (y :: rest)

/-- Python substring test `search in content` (`str.__contains__`):
true iff `search` occurs contiguously in `content`; the empty string is
contained in everything. -/
def strContains (search : List Char) : List Char → Bool
  | [] => search.isPrefixOf []
  | c :: t => search.isPrefixOf (c :: t) || strContains search t

/-- Python `content.replace(search, replace, 1)`: replace the leftmost
occurrence of `search` (if any) by `replace`; with an empty `search` the
replacement is prepended, exactly as in Python. -/
def replaceFirst (search replace : List Char) : List Char → List Char
  | [] => if search.isPrefixOf ([] : List Char) then replace else []
  | c :: t =>
    if search.isPrefixOf (c :: t) then replace ++ (c :: t).drop search.length
    else c :: replaceFirst search replace t

/-! ### `textwrap.dedent` and `str.strip` (used by the fallback matcher) -/

/-- Character class `[ \t]` of the dedent regexes. -/
def isSpaceTab (c : Char) : Bool := c = ' ' || c = '\t'

/-- Python whitespace as recognised by `str.strip()` (ASCII subset:
space, tab, newline, carriage return, vertical tab, form feed). -/
def isPyWs (c : Char) : Bool :=
  c = ' ' || c = '\t' || c = '\n' || c = '\r' || c = Char.ofNat 11 || c = Char.ofNat 12

/-- Python `s.strip()`: drop leading and trailing whitespace. -/
def strip (s : List Char) : List Char :=
  ((s.dropWhile isPyWs).reverse.dropWhile isPyWs).reverse

/-- The effect of `_whitespace_only_re.sub(chr(39)*0, text)` inside
`textwrap.dedent` on one line: a nonempty line made only of spaces and
tabs becomes empty. -/
def collapseWsLine (l : List Char) : List Char :=
  if !l.isEmpty && l.all isSpaceTab then [] else l

/-- A line matched by `_leading_whitespace_re`: it carries a character
that is not a space or tab. -/
def hasContentChar (l : List Char) : Bool := l.any (fun c => !(isSpaceTab c))

/-- Leading run of spaces and tabs of a line (the capture group of
`_leading_whitespace_re`). -/
def leadingWs (l : List Char) : List Char := l.takeWhile isSpaceTab

/-- Longest common prefix of two character lists; this is what the margin
update loop of `textwrap.dedent` computes pairwise. -/
def lcp : List Char → List Char → List Char
  | a :: as, b :: bs => if a = b then a :: lcp as bs else []
  | _, _ => []

/-- `textwrap.dedent(text)` (CPython): blank out whitespace-only lines,
compute the longest common leading `[ \t]` margin of the remaining
nonempty lines, and strip that margin from every line that starts with
it. -/
def dedent (s : List Char) : List Char :=
  let lines := (splitNl s).map collapseWsLine
  let indents := (lines.filter hasContentChar).map leadingWs
  let margin :=
    match indents with
    | [] => ([] : List Char)
    | a :: rest => rest.foldl lcp a
  joinNl (lines.map (fun l => if margin.isPrefixOf l then l.drop margin.length else l))

/-! ### `SearchReplaceFormat.apply_edit` (src/edit_formats.py lines 115-166) -/

/-- The sliding-window scan of the fallback branch: the first index `i`
such that the window of `k` consecutive lines starting at `i`
dedent-and-strips to `norm`; mirrors
`for i in range(len(content_lines) - len(search_lines) + 1)`. -/
def findWindowAux (k : Nat) (norm : List Char) : List (List Char) → Option Nat
  | [] =>
    if ([] : List (List Char)).length < k then none
    else if strip (dedent (joinNl (([] : List (List Char)).take k))) = norm then some 0
    else none
  | l :: rest =>
    if (l :: rest).length < k then none
    else if strip (dedent (joinNl ((l :: rest).take k))) = norm then some 0
    else (findWindowAux k norm rest).map (fun n => n + 1)

/-- Pure core of `SearchReplaceFormat.apply_edit`, acting on the file
content that the Python code reads and writes back: first the exact
substring pass (`content.replace(search_text, replace_text, 1)`), then
the whitespace-normalized sliding-window fallback
(`textwrap.dedent(search_text).strip()` against every window of
`len(search_lines)` content lines, splicing `replace_text.split(chr(10))`
at the matched position).  `none` models the `return False` path that
leaves the file untouched. -/
def srApplyEdit (content search replace : List Char) : Option (List Char) :=
  if strContains search content then
    some (replaceFirst search replace content)
  else
    let normalizedSearch := strip (dedent search)
    let contentLines := splitNl content
    let searchLines := splitNl normalizedSearch
    match findWindowAux searchLines.length normalizedSearch contentLines with
    | some i =>
        some (joinNl (contentLines.take i ++ splitNl replace ++
              contentLines.drop (i + searchLines.length)))
    | none => none

/-! ### File system model and `UnifiedDiffFormat.apply_edit` -/

/-- File system as an association list from (root-relative) paths to file
contents; `open(path)` is lookup, `open(path, "w")` is insert-or-replace. -/
abbrev FS : Type := List (String × List Char)

/-- Association-list lookup (first binding wins). -/
def lookupA {α : Type} : List (String × α) → String → Option α
  | [], _ => none
  | (k, v) :: rest, key => if k = key then some v else lookupA rest key

/-- Association-list insert-or-replace, keeping key order. -/
def insertA {α : Type} : List (String × α) → String → α → List (String × α)
  | [], key, v => [(key, v)]
  | (k, w) :: rest, key, v =>
    if k = key then (k, v) :: rest else (k, w) :: insertA rest key v

/-- Association-list deletion of a key (Python `del d[key]`; a dict holds
at most one binding per key, so removing every binding is the faithful
reading on the association-list model). -/
def eraseA {α : Type} : List (String × α) → String → List (String × α)
  | [], _ => []
  | (k, w) :: rest, key =>
    if k = key then eraseA rest key else (k, w) :: eraseA rest key

/-- `UnifiedDiffFormat.apply_edit` (src/edit_formats.py lines 55-76).  Its
first statement is `hunks = self._parse_diff_hunks(diff_content)`, but
neither `_parse_diff_hunks` nor `_apply_hunk` is defined anywhere in the
repository, so the call raises `AttributeError` before any file is read
or written; the `except Exception` handler prints the error and returns
`False`.  The function therefore always fails and never mutates the file
system. -/
def udiffApplyEdit (fs : FS) (_path : String) (_diffContent : List Char) : FS × Bool :=
  (fs, false)

/-! ### `SmartEditor` (src/editor.py) -/

/-- One parsed search/replace operation (the payload dict built by
`SearchReplaceFormat.parse_edits`). -/
structure SREdit where
  search : List Char
  replace : List Char
deriving DecidableEq, Repr

/-- File-level `SearchReplaceFormat.apply_edit`: the Python function opens
the target for reading first, so a missing file raises
`FileNotFoundError`, which the except branch turns into `False` with no
mutation; on a successful match the new content is written back. -/
def srApplyFile (fs : FS) (path : String) (e : SREdit) : FS × Bool :=
  match lookupA fs path with
  | none => (fs, false)
  | some content =>
    match srApplyEdit content e.search e.replace with
    | some newContent => (insertA fs path newContent, true)
    | none => (fs, false)

/-- `SmartEditor._create_backup` (lines 78-93): snapshot into the backup
directory every edit target that currently exists; missing targets are
skipped. -/
def createBackup (fs : FS) (paths : List String) : FS :=
  paths.foldl
    (fun b p =>
      match lookupA fs p with
      | some c => insertA b p c
      | none => b)
    []

/-- `SmartEditor._restore_backup` (lines 121-132): copy every backed-up
file back over the working tree; files absent from the backup are left
untouched. -/
def restoreBackup (backup fs : FS) : FS :=
  backup.foldl (fun acc pc => insertA acc pc.1 pc.2) fs

/-- Python set insertion for the `edited_files` and `failed_files` result
sets (order of first insertion retained). -/
def addToSet (s : List String) (x : String) : List String :=
  if x ∈ s then s else s ++ [x]

/-- The per-edit loop of `SmartEditor.apply_edits` (lines 44-64): apply
each edit in order, collecting edited and failed paths; a failure does
not stop later edits and `apply_edit` itself never raises, so the
per-edit `except` branch is dead for search/replace edits. -/
def applyLoop : FS → List (String × SREdit) → List String → List String →
    FS × List String × List String
  | fs, [], edited, failed => (fs, edited, failed)
  | fs, (path, e) :: rest, edited, failed =>
    let r := srApplyFile fs path e
    if r.2 then applyLoop r.1 rest (addToSet edited path) failed
    else applyLoop r.1 rest edited (addToSet failed path)

/-- `SmartEditor._validate_edits` (lines 95-119): for every edited `.py`
file, compile its current content; failures append an error line.  The
Python compiler is modelled by the oracle `pyOK`; the message detail
(line number, reason) is abstracted into a fixed prefix. -/
def validateEdits (fs : FS) (pyOK : List Char → Bool) (edited : List String) :
    List String :=
  edited.foldl
    (fun errs fp =>
      if fp.endsWith ".py" then
        match lookupA fs fp with
        | some content => if pyOK content then errs else errs ++ ["Syntax error in " ++ fp]
        | none => errs
      else errs)
    []

/-- Session result dictionary of `SmartEditor.apply_edits`. -/
structure EditResults where
  edited_files : List String
  failed_files : List String
  errors : List String
  success : Bool
  syntax_errors : List String
  lint_warnings : List String
deriving DecidableEq, Repr

/-- `SmartEditor.apply_edits` (lines 19-76) for the search/replace format,
starting from the parsed edit list (the output of
`SearchReplaceFormat.parse_edits`): the empty-edit early return, the
backup snapshot, the per-edit loop with error isolation, advisory
validation, and the final `success = edited nonempty and failed empty`.
With a known format and a parsed edit list no pipeline-level exception
can occur, so the restore branch is not taken here (it is modelled by
`restoreBackup`). -/
def applyEdits (pyOK : List Char → Bool) (fs : FS) (edits : List (String × SREdit)) :
    FS × EditResults :=
  match edits with
  | [] => (fs, ⟨[], [], ["No edits found in response"], false, [], []⟩)
  | _ :: _ =>
    let _backup := createBackup fs (edits.map Prod.fst)
    let r := applyLoop fs edits [] []
    let serrs := validateEdits r.1 pyOK r.2.1
    (r.1, ⟨r.2.1, r.2.2, [], !r.2.1.isEmpty && r.2.2.isEmpty, serrs, []⟩)

/-! ### Symbol and environment model for `ContextManager` (src/context.py) -/

/-- A scored symbol key.  The Python code stores the key as the string
`file_path + ":" + name` and recovers the two halves in
`_build_context_from_symbols` with `symbol_key.split(":", 1)`; the model
keeps the pair form, which coincides with that round trip for the
colon-free file paths of the repository. -/
structure SymbolKey where
  file : String
  name : String
deriving DecidableEq, Repr

/-- A function symbol as produced by `_get_file_symbols_ast` (fields used
by the renderers; `line` and `args` are dropped as no claim mentions
them). -/
structure FuncSym where
  name : String
  signature : String
deriving DecidableEq, Repr

/-- A class symbol as produced by `_get_file_symbols_ast`. -/
structure ClassSym where
  name : String
  methods : List String
deriving DecidableEq, Repr

/-- The per-file symbol dictionary of `_get_file_symbols_ast` (the
`variables` list is never rendered by the functions under study). -/
structure FileSymbols where
  functions : List FuncSym
  classes : List ClassSym
deriving DecidableEq, Repr

/-- Environment oracles of a `ContextManager` instance: the repository
scan result (`scan_repository`: file list and language-suffix set, the
set iteration order being fixed by the environment), the memoized symbol
extraction (`_get_file_symbols_ast`, backed by `tags_cache`, hence stable
per path within a run) and the memoized file reader (`get_file_content`,
backed by `file_cache`; read errors already surface as error strings, so
the oracle is total). -/
structure CtxEnv where
  repoFiles : List String
  repoLanguages : List String
  symbolsOf : String → FileSymbols
  contentOf : String → String

/-- `_format_file_symbols` (lines 476-494): tree-like outline of one
file, classes (with their methods) first, then function signatures, the
symbol that triggered inclusion marked with a star. -/
def formatFileSymbols (fp : String) (sym : FileSymbols) (highlight : Option String) :
    String :=
  fp ++ ":\n" ++
  pyJoin "" (sym.classes.map (fun cls =>
    (if highlight = some cls.name then "★ " else "  ") ++ "class " ++ cls.name ++ ":\n" ++
    pyJoin "" (cls.methods.map (fun m => "    def " ++ m ++ "()\n")))) ++
  pyJoin "" (sym.functions.map (fun f =>
    (if highlight = some f.name then "★ " else "  ") ++ "def " ++ f.signature ++ "\n")) ++
  "\n"

/-- Repository overview header shared by `_build_context_from_symbols`
(lines 458-460) and `_build_basic_context` (lines 581-582). -/
def ctxOverview (env : CtxEnv) : String :=
  "Repository: " ++ toString env.repoFiles.length ++ " files\n" ++
  "Languages: " ++ pyJoin ", " env.repoLanguages ++ "\n\n"

/-- The symbol loop of `_build_context_from_symbols` (lines 463-470):
append the outline of the owning file of each scored symbol, once per file
(`included_files` deduplication), highlighting the symbol that caused
inclusion. -/
def bcLoopSym (env : CtxEnv) : List (SymbolKey × Rat) → List String → String
  | [], _ => ""
  | (key, _) :: rest, included =>
    if key.file ∈ included then bcLoopSym env rest included
    else
      formatFileSymbols key.file (env.symbolsOf key.file) (some key.name) ++
      bcLoopSym env rest (key.file :: included)

/-- `_build_context_from_symbols` (lines 451-472): overview followed by
the deduplicated per-file outlines of the given scored symbols. -/
def buildContextFromSymbols (env : CtxEnv) (symbolItems : List (SymbolKey × Rat)) :
    String :=
  ctxOverview env ++ bcLoopSym env symbolItems []

/-- `_build_basic_context` (lines 575-590): unbudgeted fallback rendering
of the outlines of the given files. -/
def buildBasicContext (env : CtxEnv) (files : List String) : String :=
  ctxOverview env ++
  pyJoin "" (files.map (fun fp => formatFileSymbols fp (env.symbolsOf fp) none))

/-- The `while lower_bound <= upper_bound` loop of
`_binary_search_context` (lines 435-446).  `hiP` stands for
`upper_bound + 1`, so that both bounds stay in `Nat` (`upper_bound`
starts at `len(sorted_symbols)` and may end at `-1`); the loop condition
`lower_bound <= upper_bound` becomes `lo < hiP` and the midpoint
`(lower_bound + upper_bound) // 2` becomes `(lo + hiP - 1) / 2`.  `f m`
is the rendering of the first `m` scored symbols and `T` the token
budget; `best` carries `best_context`. -/
def bsLoop (f : Nat → String) (T : Nat) (lo hiP : Nat) (best : String) : String :=
  if _h : lo < hiP then
    if (f ((lo + hiP - 1) / 2)).length / 4 ≤ T then
      bsLoop f T ((lo + hiP - 1) / 2 + 1) hiP (f ((lo + hiP - 1) / 2))
    else
      bsLoop f T lo ((lo + hiP - 1) / 2) best
  else best
termination_by hiP - lo
decreasing_by
  all_goals omega

/-- `_binary_search_context` (lines 422-448): empty symbol lists fall
back to a basic context of the first three files; otherwise the binary
search runs with `lower_bound = 0`, `upper_bound = len(sorted_symbols)`,
and a falsy (empty) `best_context` falls back to a basic context of the
first two files. -/
def binarySearchContext (env : CtxEnv) (sortedSymbols : List (SymbolKey × Rat))
    (maxTokens : Nat) (files : List String) : String :=
  if sortedSymbols.isEmpty then buildBasicContext env (files.take 3)
  else
    let best := bsLoop (fun m => buildContextFromSymbols env (sortedSymbols.take m))
      maxTokens 0 (sortedSymbols.length + 1) ""
    if best = "" then buildBasicContext env (files.take 2) else best

/-- `ContextManager.calculate_relevance_scores` (lines 339-377).  Its
per-file loop body begins with
`symbols = self.__get_file_symbols_ast_ast(file_path)`; after name
mangling this looks up the attribute
`_ContextManager__get_file_symbols_ast_ast`, which is defined nowhere in
the class (the existing extractor is `_get_file_symbols_ast`), so the
first loop iteration raises `AttributeError` and no score is ever
computed.  With an empty file list the loop body never runs and the
function returns the empty dict. -/
def calcRelevanceScores (files : List String) (_mentionedSymbols : List String) :
    Except String (List (SymbolKey × Rat)) :=
  match files with
  | [] => Except.ok []
  | _ :: _ =>
      Except.error
        "AttributeError: ContextManager object has no attribute _ContextManager__get_file_symbols_ast_ast"

/-- Stable insertion of one scored symbol into a descending-by-score
list (model of `sorted(..., key=lambda x: x[1], reverse=True)`). -/
def insertDesc (p : SymbolKey × Rat) : List (SymbolKey × Rat) → List (SymbolKey × Rat)
  | [] => [p]
  | q :: rest => if q.2 < p.2 then p :: q :: rest else q :: insertDesc p rest

/-- `sorted(scores.items(), key=lambda x: x[1], reverse=True)`. -/
def sortByScoreDesc (l : List (SymbolKey × Rat)) : List (SymbolKey × Rat) :=
  l.foldr insertDesc []

/-- `build_optimized_context` (lines 409-419): widen the budget for an
empty file list (`map_mul_no_files = 8`, ceiling 32000), score, sort
descending, and binary-search; the scoring error of
`calcRelevanceScores` propagates. -/
def buildOptimizedContext (env : CtxEnv) (files : List String) (_query : String)
    (mentionedSymbols : List String) (budget : Nat) : Except String String :=
  let maxTokens := if files.isEmpty then min (budget * 8) 32000 else budget
  match calcRelevanceScores files mentionedSymbols with
  | Except.error e => Except.error e
  | Except.ok scores =>
      Except.ok (binarySearchContext env (sortByScoreDesc scores) maxTokens files)

/-! ### `build_context` and `get_context_for_message` (lines 543-572, 610-622) -/

/-- The overview triple-quoted f-string of `build_context` (lines
550-551), reproduced with its trailing space after the comma and the 23
spaces of continuation-line indentation. -/
def bcOverview (env : CtxEnv) : String :=
  "Repository: " ++ toString env.repoFiles.length ++ " files, \n" ++
  "                       Languages: " ++ pyJoin ", " env.repoLanguages ++ "\n\n"

/-- The full-content section `f"==={file_path} ===\n{content}\n\n"`. -/
def fileSection (env : CtxEnv) (fp : String) : String :=
  "===" ++ fp ++ " ===\n" ++ env.contentOf fp ++ "\n\n"

/-- The truncated section
`f"=== {file_path} (truncated) ===\n{truncated_content}\n\n"`, with the
content cut to `remaining_budget * 4` characters. -/
def truncSection (env : CtxEnv) (fp : String) (remaining : Nat) : String :=
  "=== " ++ fp ++ " (truncated) ===\n" ++ (env.contentOf fp).take (remaining * 4) ++ "\n\n"

/-- The file loop of `build_context` (lines 555-570): stop when the
accumulated token estimate has reached the budget; append full sections
that fit; truncate the first overflowing section and stop. -/
def bcFilesLoop (env : CtxEnv) (budget : Nat) : List String → Nat → String
  | [], _ => ""
  | fp :: rest, current =>
    if budget ≤ current then ""
    else
      let ftoks := (fileSection env fp).length / 4
      if current + ftoks ≤ budget then
        fileSection env fp ++ bcFilesLoop env budget rest (current + ftoks)
      else truncSection env fp (budget - current)

/-- `build_context` (lines 543-572): overview plus the budgeted file
loop, seeded with the token estimate of the overview itself. -/
def buildContext (env : CtxEnv) (files : List String) (budget : Nat) : String :=
  bcOverview env ++ bcFilesLoop env budget files ((bcOverview env).length / 4)

/-- `get_context_for_message` (lines 610-622): dispatch between the
optimized overview (no files), raw full contents (at most three files)
and the optimized ranking (more files).  The result is `Except` because
the optimized branches reach the broken scorer. -/
def getContextForMessage (env : CtxEnv) (files : List String) (message : String)
    (budget : Nat) : Except String String :=
  if files.isEmpty then buildOptimizedContext env [] message [] budget
  else if files.length ≤ 3 then Except.ok (buildContext env files budget)
  else buildOptimizedContext env files message [] budget

/-- Specification-side running token estimate of `build_context`: the
estimate after the overview and the full sections of `files`. -/
def cumAfter (env : CtxEnv) (files : List String) (start : Nat) : Nat :=
  start + (files.map (fun fp => (fileSection env fp).length / 4)).sum

/-- Specification-side predicate: starting from estimate `current`,
every file of the list passes both loop checks of `build_context` (the
budget is not yet exhausted when the file is considered, and its full
section fits). -/
def allFitB (env : CtxEnv) (budget : Nat) : List String → Nat → Bool
  | [], _ => true
  | fp :: rest, current =>
    decide (current < budget) &&
    decide (current + (fileSection env fp).length / 4 ≤ budget) &&
    allFitB env budget rest (current + (fileSection env fp).length / 4)

/-! ### Context cache (`get_cached_context` / `cache_context`, lines 498-540) -/

/-- One entry of `self.context_cache`: the rendered context, the file
list, and the per-entry `mtimes` dict stored at write time.  Note that
`get_cached_context` never reads the `mtimes` field. -/
structure CacheEntry where
  context : String
  files : List String
  mtimes : List (String × Int)
deriving DecidableEq, Repr

/-- The cache-related state of a `ContextManager`: the keyed context
cache and the manager-wide `self.file_mtimes` dict shared by all
entries. -/
structure CMState where
  context_cache : List (String × CacheEntry)
  file_mtimes : List (String × Int)
deriving DecidableEq, Repr

/-- Oracle for `os.path.getmtime`; `none` models the `OSError` raised for
a missing file.  Modification times are modelled as integers (only
equality is ever tested). -/
structure MtimeEnv where
  getmtime : String → Option Int

/-- The validation loop of `get_cached_context` (lines 508-518): every
file of the entry must still exist and its current mtime must equal the
binding in the manager-wide `self.file_mtimes` dict (a missing binding
counts as stale).  The Python loop deletes the entry and returns at the
first failing file; since the deletion is the same whichever file fails,
the check is factored into this pure pass. -/
def checkFilesLoop (env : MtimeEnv) (fm : List (String × Int)) : List String → Bool
  | [] => true
  | fp :: rest =>
    match env.getmtime fp with
    | none => false
    | some cur =>
      match lookupA fm fp with
      | none => false
      | some t => if t ≠ cur then false else checkFilesLoop env fm rest

/-- `get_cached_context` (lines 498-520): absent keys report absence and
leave the state alone; a present entry is returned only when every
recorded file passes the mtime check against `self.file_mtimes`,
otherwise the whole entry is evicted and absence is reported. -/
def getCachedContext (env : MtimeEnv) (st : CMState) (key : String) :
    Option String × CMState :=
  match lookupA st.context_cache key with
  | none => (none, st)
  | some cd =>
    if checkFilesLoop env st.file_mtimes cd.files then (some cd.context, st)
    else (none, { st with context_cache := eraseA st.context_cache key })

/-- `cache_context` (lines 524-540): record the current mtime of every
stat-able file, store the entry under the key, and merge the new mtimes
into the manager-wide `self.file_mtimes` dict
(`self.file_mtimes.update(file_mtimes)`). -/
def cacheContext (env : MtimeEnv) (st : CMState) (key context : String)
    (files : List String) : CMState :=
  let fm := files.foldl
    (fun acc fp =>
      match env.getmtime fp with
      | some t => insertA acc fp t
      | none => acc)
    []
  { context_cache := insertA st.context_cache key ⟨context, files, fm⟩,
    file_mtimes := fm.foldl (fun acc p => insertA acc p.1 p.2) st.file_mtimes }

/-! ### Concrete instances used by witnesses and counterexamples -/

/-- Tiny context environment: one repository file, empty symbol tables,
constant file contents. -/
def envW : CtxEnv :=
  { repoFiles := ["a.py"],
    repoLanguages := [".py"],
    symbolsOf := fun _ => ⟨[], []⟩,
    contentOf := fun _ => "" }

/-- Context environment whose single known file has one function symbol;
used to exhibit the unbudgeted fallback of the binary search. -/
def envC2 : CtxEnv :=
  { repoFiles := ["a.py"],
    repoLanguages := [".py"],
    symbolsOf := fun _ => ⟨[⟨"f", "f()"⟩], []⟩,
    contentOf := fun _ => "" }

/-- Scored symbol list with a single entry, for the binary-search
witness. -/
def itemsW : List (SymbolKey × Rat) := [(⟨"a.py", "foo"⟩, 1)]

/-- Scored symbol list with two entries in distinct files, for the
monotonicity witness. -/
def itemsW3 : List (SymbolKey × Rat) := [(⟨"a.py", "foo"⟩, 2), (⟨"b.py", "bar"⟩, 1)]

/-- Context environment with empty repository scan and 16-character file
contents, used for the `build_context` truncation witness and the
exhausted-budget counterexample. -/
def envC8 : CtxEnv :=
  { repoFiles := [],
    repoLanguages := [],
    symbolsOf := fun _ => ⟨[], []⟩,
    contentOf := fun _ => "0123456789abcdef" }

/-- Mtime oracle that reports every file as having mtime 1. -/
def mtimeEnv1 : MtimeEnv := ⟨fun _ => some 1⟩

/-- Mtime oracle that reports every file as having mtime 2 (the state of
the world after `f.py` was modified). -/
def mtimeEnv2 : MtimeEnv := ⟨fun _ => some 2⟩

/-- Cache state reached by writing entry `A` for `f.py` while its mtime
was 1 and then entry `B` for `f.py` after its mtime changed to 2: the
manager-wide `file_mtimes` now holds the newer time while entry `A`
still stores the older one. -/
def cmStateAB : CMState :=
  cacheContext mtimeEnv2 (cacheContext mtimeEnv1 ⟨[], []⟩ "A" "ctxA" ["f.py"])
    "B" "ctxB" ["f.py"]

/-- Two-file file system for the edit-session witness. -/
def fsW : FS := [("a.py", ['x']), ("b.py", ['y'])]

/-- Specification-side normal form of the window of `k` content lines
starting at index `i` (what the fallback loop of
`SearchReplaceFormat.apply_edit` compares against the normalized search
text). -/
def windowNorm (contentLines : List (List Char)) (k i : Nat) : List Char :=
  strip (dedent (joinNl ((contentLines.drop i).take k)))

/-! ## Helper lemmas -/

theorem lookupA_insertA_self {α : Type} (l : List (String × α)) (k : String) (v : α) :
    lookupA (insertA l k v) k = some v := by
  induction l with
  | nil => simp [insertA, lookupA]
  | cons hd tl ih =>
    obtain ⟨k0, v0⟩ := hd
    by_cases h : k0 = k
    · simp [insertA, lookupA, h]
    · simp [insertA, lookupA, h, ih]

theorem lookupA_insertA_ne {α : Type} (l : List (String × α)) (k k2 : String) (v : α)
    (h : k ≠ k2) : lookupA (insertA l k v) k2 = lookupA l k2 := by
  induction l with
  | nil => simp [insertA, lookupA, h]
  | cons hd tl ih =>
    obtain ⟨k0, v0⟩ := hd
    by_cases h0 : k0 = k
    · subst h0
      simp [insertA, lookupA, h]
    · simp [insertA, lookupA, h0, ih]

theorem strContains_of_prefix_drop (search content : List Char) (i : Nat)
    (h : search.isPrefixOf (content.drop i) = true) :
    strContains search content = true := by
  induction i generalizing content with
  | zero =>
    cases content with
    | nil => simpa [strContains] using h
    | cons c t => simp only [List.drop_zero] at h; simp [strContains, h]
  | succ i ih =>
    cases content with
    | nil => simpa [strContains] using h
    | cons c t =>
      have ht := ih t (by simpa using h)
      simp [strContains, ht]

theorem replaceFirst_at_first (search replace content : List Char) (i : Nat)
    (h : search.isPrefixOf (content.drop i) = true)
    (hmin : ∀ j, j < i → search.isPrefixOf (content.drop j) = false) :
    replaceFirst search replace content =
      content.take i ++ replace ++ content.drop (i + search.length) := by
  induction i generalizing content with
  | zero =>
    cases content with
    | nil =>
      simp only [List.drop_nil] at h
      simp [replaceFirst, h]
    | cons c t =>
      simp only [List.drop_zero] at h
      simp [replaceFirst, h]
  | succ i ih =>
    have h0 : search.isPrefixOf content = false := by
      simpa using hmin 0 (Nat.succ_pos i)
    cases content with
    | nil => simp only [List.drop_nil] at h; rw [h] at h0; exact absurd h0 (by simp)
    | cons c t =>
      have ht := ih t (by simpa using h)
        (fun j hj => by simpa using hmin (j + 1) (Nat.succ_lt_succ hj))
      simp only [replaceFirst, h0, Bool.false_eq_true, if_false, ht]
      simp [List.take_succ_cons, Nat.succ_add]

theorem findWindowAux_at_first (k : Nat) (norm : List Char) (lines : List (List Char))
    (i : Nat) (hlen : i + k ≤ lines.length)
    (hmatch : windowNorm lines k i = norm)
    (hmin : ∀ j, j < i → windowNorm lines k j ≠ norm) :
    findWindowAux k norm lines = some i := by
  induction i generalizing lines with
  | zero =>
    cases lines with
    | nil =>
      have hk : k = 0 := by simpa using hlen
      subst hk
      simp only [windowNorm, List.drop_nil, List.take_nil] at hmatch
      simp [findWindowAux, hmatch]
    | cons l rest =>
      have hk : ¬ ((l :: rest).length < k) := by
        simp only [Nat.zero_add] at hlen; omega
      simp only [windowNorm, List.drop_zero] at hmatch
      simp only [findWindowAux]
      rw [if_neg hk, if_pos hmatch]
  | succ i ih =>
    cases lines with
    | nil => simp at hlen
    | cons l rest =>
      have hk : ¬ ((l :: rest).length < k) := by
        simp only [List.length_cons] at hlen ⊢; omega
      have h0 : ¬ (strip (dedent (joinNl ((l :: rest).take k))) = norm) := by
        have := hmin 0 (Nat.succ_pos i)
        simpa [windowNorm] using this
      have ht := ih rest (by simpa [Nat.succ_add] using hlen)
        (by simpa [windowNorm] using hmatch)
        (fun j hj => by
          have := hmin (j + 1) (Nat.succ_lt_succ hj)
          simpa [windowNorm] using this)
      simp only [findWindowAux]
      rw [if_neg hk, if_neg h0, ht]
      rfl

/-! ## Claim theorems -/

/-- Claim C4: for an existing target file, a search text occurring
verbatim in the content is replaced exactly at its first occurrence by
the exact pass, and a search text absent verbatim is handled by the
normalized sliding-window fallback, which splices the literal
replacement lines at the first window (of the normalized search text line
count) whose dedent-and-stripped form equals the dedent-and-stripped
search text. -/
theorem srApplyEdit_exact_and_fallback (content search replace : List Char) :
    (∀ i, search.isPrefixOf (content.drop i) = true →
        (∀ j, j < i → search.isPrefixOf (content.drop j) = false) →
        srApplyEdit content search replace =
          some (content.take i ++ replace ++ content.drop (i + search.length)))
  ∧ (strContains search content = false →
      ∀ i, i + (splitNl (strip (dedent search))).length ≤ (splitNl content).length →
        windowNorm (splitNl content) (splitNl (strip (dedent search))).length i =
          strip (dedent search) →
        (∀ j, j < i →
          windowNorm (splitNl content) (splitNl (strip (dedent search))).length j ≠
            strip (dedent search)) →
        srApplyEdit content search replace =
          some (joinNl ((splitNl content).take i ++ splitNl replace ++
            (splitNl content).drop (i + (splitNl (strip (dedent search))).length)))) := by
  constructor
  · intro i h hmin
    have hc : strContains search content = true := strContains_of_prefix_drop search content i h
    simp only [srApplyEdit, hc, if_true]
    rw [replaceFirst_at_first search replace content i h hmin]
  · intro hex i hlen hmatch hmin
    simp only [srApplyEdit, hex, Bool.false_eq_true, if_false]
    rw [findWindowAux_at_first (splitNl (strip (dedent search))).length
      (strip (dedent search)) (splitNl content) i hlen hmatch hmin]

/-- Witness for C4: the exact pass on content `abc`, search `b`; and the
fallback pass on a two-line function body whose search text carries two
extra spaces of indentation on every line. -/
theorem srApplyEdit_exact_and_fallback_witness :
    srApplyEdit "abc".toList "b".toList "X".toList = some "aXc".toList ∧
    srApplyEdit "def f():\n    pass".toList "  def f():\n      pass".toList
        "def g():\n    return 1".toList =
      some "def g():\n    return 1".toList := by
  refine ⟨((srApplyEdit_exact_and_fallback "abc".toList "b".toList "X".toList).1
    1 (by decide) (by decide)).trans (by decide), ?_⟩
  exact ((srApplyEdit_exact_and_fallback "def f():\n    pass".toList
    "  def f():\n      pass".toList "def g():\n    return 1".toList).2
    (by decide) 0 (by decide) (by decide) (by decide)).trans (by decide)

/-- Claim C9 (corrected): a search/replace edit whose target file does
not exist fails and leaves the file system unchanged — `apply_edit`
opens the target for reading, the raised `FileNotFoundError` is caught,
and `False` is returned; the missing file is not treated as empty. -/
theorem srApplyFile_missing_fails (fs : FS) (path : String) (e : SREdit)
    (h : lookupA fs path = none) : srApplyFile fs path e = (fs, false) := by
  simp [srApplyFile, h]

/-- Witness for C9: applying an edit to a path absent from an empty file
system fails without mutation. -/
theorem srApplyFile_missing_fails_witness :
    srApplyFile [] "f.py" ⟨" ".toList, "X".toList⟩ = ([], false) :=
  srApplyFile_missing_fails [] "f.py" ⟨" ".toList, "X".toList⟩ (by decide)

/-- Counterexample for C9: a missing target file is not treated as having
empty content.  Against an existing empty file, the whitespace-only
search text matches the normalized window and the edit succeeds, writing
the replacement; against a missing file the same edit fails.  So the
claimed equivalence with empty content is false. -/
theorem srApplyFile_missing_ne_empty :
    srApplyFile [] "f.py" ⟨" ".toList, "X".toList⟩ = ([], false) ∧
    srApplyFile [("f.py", [])] "f.py" ⟨" ".toList, "X".toList⟩ =
      ([("f.py", "X".toList)], true) := by
  constructor <;> decide

/-- Claim C5: in a two-edit session whose first edit matches its existing
target and whose second edit fails even after normalization, the session
ends unsuccessfully, the first file is reported edited, the second
failed, and the new content of the first file stays on disk — per-file
failure triggers no rollback. -/
theorem applyEdits_partial_failure (pyOK : List Char → Bool) (fs : FS)
    (f1 f2 : String) (e1 e2 : SREdit) (c1 c2 c1o : List Char)
    (hne : f1 ≠ f2)
    (h1 : lookupA fs f1 = some c1)
    (h1s : srApplyEdit c1 e1.search e1.replace = some c1o)
    (h2 : lookupA fs f2 = some c2)
    (h2f : srApplyEdit c2 e2.search e2.replace = none) :
    (applyEdits pyOK fs [(f1, e1), (f2, e2)]).2.success = false ∧
    (applyEdits pyOK fs [(f1, e1), (f2, e2)]).2.edited_files = [f1] ∧
    (applyEdits pyOK fs [(f1, e1), (f2, e2)]).2.failed_files = [f2] ∧
    lookupA (applyEdits pyOK fs [(f1, e1), (f2, e2)]).1 f1 = some c1o := by
  have hl2 : lookupA (insertA fs f1 c1o) f2 = some c2 :=
    (lookupA_insertA_ne fs f1 f2 c1o hne).trans h2
  have key : applyLoop fs [(f1, e1), (f2, e2)] [] [] = (insertA fs f1 c1o, [f1], [f2]) := by
    simp [applyLoop, srApplyFile, h1, h1s, hl2, h2f, addToSet]
  simp [applyEdits, key, lookupA_insertA_self]

/-- Witness for C5: file `a.py` holds `x` and is rewritten to `z`; file
`b.py` holds `y` and the search text `q` matches nothing in it. -/
theorem applyEdits_partial_failure_witness :
    (applyEdits (fun _ => true) fsW [("a.py", ⟨['x'], ['z']⟩), ("b.py", ⟨['q'], ['w']⟩)]).2.success = false ∧
    (applyEdits (fun _ => true) fsW [("a.py", ⟨['x'], ['z']⟩), ("b.py", ⟨['q'], ['w']⟩)]).2.edited_files = ["a.py"] ∧
    (applyEdits (fun _ => true) fsW [("a.py", ⟨['x'], ['z']⟩), ("b.py", ⟨['q'], ['w']⟩)]).2.failed_files = ["b.py"] ∧
    lookupA (applyEdits (fun _ => true) fsW [("a.py", ⟨['x'], ['z']⟩), ("b.py", ⟨['q'], ['w']⟩)]).1 "a.py" = some ['z'] :=
  applyEdits_partial_failure (fun _ => true) fsW "a.py" "b.py" ⟨['x'], ['z']⟩ ⟨['q'], ['w']⟩
    ['x'] ['y'] ['z'] (by decide) (by decide) (by decide) (by decide) (by decide)

/-- Claim C6 (code bug): `UnifiedDiffFormat.apply_edit` never parses or
applies any hunk — its first statement calls the undefined method
`_parse_diff_hunks`, the resulting `AttributeError` is caught, and the
function reports failure with the file system untouched, for every diff
and every original content. -/
theorem udiffApplyEdit_always_fails (fs : FS) (path : String) (diffContent : List Char) :
    udiffApplyEdit fs path diffContent = (fs, false) := rfl

/-- Claim C1 (code bug): for any nonempty candidate file list,
`calculate_relevance_scores` raises before computing a single score,
because its loop body calls the nonexistent (name-mangled) method
`__get_file_symbols_ast_ast`; the claimed tenfold mention boost is never
reached. -/
theorem calcRelevanceScores_raises (files : List String) (mentioned : List String)
    (h : files ≠ []) :
    calcRelevanceScores files mentioned =
      Except.error
        "AttributeError: ContextManager object has no attribute _ContextManager__get_file_symbols_ast_ast" := by
  cases files with
  | nil => exact absurd rfl h
  | cons f rest => rfl

/-- Witness for C1: one candidate file and a nonempty mention set already
trigger the `AttributeError`. -/
theorem calcRelevanceScores_raises_witness :
    calcRelevanceScores ["a.py"] ["foo"] =
      Except.error
        "AttributeError: ContextManager object has no attribute _ContextManager__get_file_symbols_ast_ast" :=
  calcRelevanceScores_raises ["a.py"] ["foo"] (by decide)

theorem lookupA_some_mem {α : Type} (l : List (String × α)) (p : String) (v : α)
    (h : lookupA l p = some v) : (p, v) ∈ l := by
  induction l with
  | nil => simp [lookupA] at h
  | cons hd tl ih =>
    obtain ⟨k, w⟩ := hd
    by_cases hk : k = p
    · subst hk
      simp [lookupA] at h
      simp [h]
    · simp only [lookupA, hk, if_false] at h
      exact List.mem_cons_of_mem _ (ih h)

theorem mem_insertA {α : Type} (l : List (String × α)) (k : String) (v : α)
    (x : String × α) (h : x ∈ insertA l k v) : x ∈ l ∨ x = (k, v) := by
  induction l with
  | nil => simpa [insertA] using h
  | cons hd tl ih =>
    obtain ⟨k0, w⟩ := hd
    by_cases hk : k0 = k
    · subst hk
      simp only [insertA, if_pos rfl] at h
      rcases List.mem_cons.mp h with h | h
      · right; simpa using h
      · left; exact List.mem_cons_of_mem _ h
    · simp only [insertA, hk, if_false] at h
      rcases List.mem_cons.mp h with h | h
      · left; simp [h]
      · rcases ih h with h | h
        · left; exact List.mem_cons_of_mem _ h
        · right; exact h

theorem mem_createBackup (fs0 : FS) (targets : List String) (x : String × List Char)
    (h : x ∈ createBackup fs0 targets) : lookupA fs0 x.1 = some x.2 := by
  suffices hgen : ∀ (acc : FS), (∀ y ∈ acc, lookupA fs0 y.1 = some y.2) →
      x ∈ targets.foldl
        (fun b p =>
          match lookupA fs0 p with
          | some c => insertA b p c
          | none => b)
        acc →
      lookupA fs0 x.1 = some x.2 by
    exact hgen [] (by simp) h
  clear h
  induction targets with
  | nil =>
    intro acc hacc hx
    exact hacc x hx
  | cons q rest ih =>
    intro acc hacc hx
    simp only [List.foldl_cons] at hx
    cases hq : lookupA fs0 q with
    | none =>
      rw [hq] at hx
      exact ih acc hacc hx
    | some c =>
      rw [hq] at hx
      refine ih (insertA acc q c) ?_ hx
      intro y hy
      rcases mem_insertA acc q c y hy with hy | hy
      · exact hacc y hy
      · subst hy; exact hq

theorem lookupA_createBackup_some (fs0 : FS) (targets : List String) (p : String)
    (c : List Char) (hp : p ∈ targets) (hc : lookupA fs0 p = some c) :
    lookupA (createBackup fs0 targets) p = some c := by
  suffices hgen : ∀ (acc : FS), (p ∈ targets ∨ lookupA acc p = some c) →
      lookupA (targets.foldl
        (fun b q =>
          match lookupA fs0 q with
          | some cc => insertA b q cc
          | none => b)
        acc) p = some c by
    exact hgen [] (Or.inl hp)
  clear hp
  induction targets with
  | nil =>
    intro acc hacc
    rcases hacc with h | h
    · simp at h
    · simpa using h
  | cons q rest ih =>
    intro acc hacc
    simp only [List.foldl_cons]
    by_cases hq : q = p
    · subst hq
      rw [hc]
      exact ih _ (Or.inr (lookupA_insertA_self acc q c))
    · cases hq2 : lookupA fs0 q with
      | none =>
        refine ih acc ?_
        rcases hacc with h | h
        · rcases List.mem_cons.mp h with h | h
          · exact absurd h.symm hq
          · exact Or.inl h
        · exact Or.inr h
      | some cc =>
        refine ih (insertA acc q cc) ?_
        rcases hacc with h | h
        · rcases List.mem_cons.mp h with h | h
          · exact absurd h.symm hq
          · exact Or.inl h
        · exact Or.inr ((lookupA_insertA_ne acc q p cc hq).trans h)

theorem lookupA_createBackup_none (fs0 : FS) (targets : List String) (p : String)
    (hc : lookupA fs0 p = none) :
    lookupA (createBackup fs0 targets) p = none := by
  suffices hgen : ∀ (acc : FS), lookupA acc p = none →
      lookupA (targets.foldl
        (fun b q =>
          match lookupA fs0 q with
          | some cc => insertA b q cc
          | none => b)
        acc) p = none by
    exact hgen [] rfl
  induction targets with
  | nil =>
    intro acc hacc
    simpa using hacc
  | cons q rest ih =>
    intro acc hacc
    simp only [List.foldl_cons]
    cases hq2 : lookupA fs0 q with
    | none => exact ih acc hacc
    | some cc =>
      have hq : q ≠ p := by
        intro hqp
        subst hqp
        rw [hq2] at hc
        exact Option.noConfusion hc
      exact ih (insertA acc q cc) ((lookupA_insertA_ne acc q p cc hq).trans hacc)

theorem lookupA_restore_of_none (backup : FS) (fs : FS) (p : String)
    (h : lookupA backup p = none) :
    lookupA (restoreBackup backup fs) p = lookupA fs p := by
  induction backup generalizing fs with
  | nil => rfl
  | cons hd tl ih =>
    obtain ⟨k, w⟩ := hd
    have hk : k ≠ p := by
      intro hkp
      simp [lookupA, hkp] at h
    simp only [lookupA, hk, if_false] at h
    simp only [restoreBackup, List.foldl_cons]
    exact (ih (insertA fs k w) h).trans (lookupA_insertA_ne fs k p w hk)

theorem lookupA_restore_of_consistent (backup : FS) (fs : FS) (p : String)
    (c : List Char) (hall : ∀ v, (p, v) ∈ backup → v = c)
    (hmem : lookupA backup p = some c) :
    lookupA (restoreBackup backup fs) p = some c := by
  induction backup generalizing fs with
  | nil => simp [lookupA] at hmem
  | cons hd tl ih =>
    obtain ⟨k, w⟩ := hd
    simp only [restoreBackup, List.foldl_cons]
    cases htl : lookupA tl p with
    | some c2 =>
      have hc2 : c2 = c := hall c2 (List.mem_cons_of_mem _ (lookupA_some_mem tl p c2 htl))
      subst hc2
      exact ih (insertA fs k w) (fun v hv => hall v (List.mem_cons_of_mem _ hv)) htl
    | none =>
      by_cases hk : k = p
      · subst hk
        simp only [lookupA, if_pos rfl] at hmem
        have hw : w = c := Option.some_injective _ hmem
        subst hw
        have := lookupA_restore_of_none tl (insertA fs k w) k htl
        rw [restoreBackup] at this
        exact this.trans (lookupA_insertA_self fs k w)
      · simp only [lookupA, hk, if_false] at hmem
        rw [hmem] at htl
        exact Option.noConfusion htl

/-- Claim C10: restoring from a session backup puts every snapshotted
file (an edit target that existed before the first mutation) back to its
pre-session content, but any path that did not exist before the session
keeps whatever the session left there — in particular a file newly
created by an edit survives the rollback, so the pre-session file system
is not reproduced exactly. -/
theorem restoreBackup_partial (fs0 : FS) (targets : List String) (fsMid : FS) :
    (∀ p c, p ∈ targets → lookupA fs0 p = some c →
      lookupA (restoreBackup (createBackup fs0 targets) fsMid) p = some c) ∧
    (∀ p, lookupA fs0 p = none →
      lookupA (restoreBackup (createBackup fs0 targets) fsMid) p = lookupA fsMid p) := by
  constructor
  · intro p c hp hc
    refine lookupA_restore_of_consistent (createBackup fs0 targets) fsMid p c ?_ ?_
    · intro v hv
      have := mem_createBackup fs0 targets (p, v) hv
      rw [hc] at this
      exact (Option.some_injective _ this.symm)
    · exact lookupA_createBackup_some fs0 targets p c hp hc
  · intro p hp
    exact lookupA_restore_of_none _ fsMid p (lookupA_createBackup_none fs0 targets p hp)

/-- Witness for C10: before the session only `a.py` exists (content
`x`); the session rewrites it to `X` and creates `new.py`; after restore
`a.py` is back to `x` while `new.py` is still present. -/
theorem restoreBackup_partial_witness :
    lookupA (restoreBackup (createBackup [("a.py", ['x'])] ["a.py", "new.py"])
      [("a.py", ['X']), ("new.py", ['n'])]) "a.py" = some ['x'] ∧
    lookupA (restoreBackup (createBackup [("a.py", ['x'])] ["a.py", "new.py"])
      [("a.py", ['X']), ("new.py", ['n'])]) "new.py" = some ['n'] := by
  have h := restoreBackup_partial [("a.py", ['x'])] ["a.py", "new.py"]
    [("a.py", ['X']), ("new.py", ['n'])]
  refine ⟨h.1 "a.py" ['x'] (by decide) (by decide), ?_⟩
  have h2 := h.2 "new.py" (by decide)
  rw [h2]
  decide

theorem bcLoopSym_append (env : CtxEnv) (l1 l2 : List (SymbolKey × Rat))
    (incl : List String) :
    ∃ s, bcLoopSym env (l1 ++ l2) incl = bcLoopSym env l1 incl ++ s := by
  induction l1 generalizing incl with
  | nil => exact ⟨bcLoopSym env l2 incl, by simp [bcLoopSym]⟩
  | cons hd tl ih =>
    obtain ⟨key, sc⟩ := hd
    by_cases h : key.file ∈ incl
    · obtain ⟨s, hs⟩ := ih incl
      refine ⟨s, ?_⟩
      simp only [List.cons_append, bcLoopSym, if_pos h]
      exact hs
    · obtain ⟨s, hs⟩ := ih (key.file :: incl)
      refine ⟨s, ?_⟩
      simp only [List.cons_append, bcLoopSym, if_neg h]
      rw [List.append_eq, hs, String.append_assoc]

theorem bcsLen_take_mono (env : CtxEnv) (items : List (SymbolKey × Rat)) (m n : Nat)
    (h : m ≤ n) :
    (buildContextFromSymbols env (items.take m)).length ≤
      (buildContextFromSymbols env (items.take n)).length := by
  have hsplit : items.take n = items.take m ++ (items.drop m).take (n - m) := by
    have hmn : m + (n - m) = n := by omega
    conv_lhs => rw [← hmn]
    rw [List.take_add]
  obtain ⟨s, hs⟩ := bcLoopSym_append env (items.take m) ((items.drop m).take (n - m)) []
  unfold buildContextFromSymbols
  rw [hsplit, hs, ← String.append_assoc]
  simp [String.length_append]

/-- Claim C3: the character length of the context rendered from the
top-`m` scored symbols by `_build_context_from_symbols` is non-decreasing
in `m`: the rendering deduplicates by owning file and only appends. -/
theorem buildContextFromSymbols_length_mono (env : CtxEnv)
    (items : List (SymbolKey × Rat)) (m n : Nat) (h : m ≤ n) :
    (buildContextFromSymbols env (items.take m)).length ≤
      (buildContextFromSymbols env (items.take n)).length :=
  bcsLen_take_mono env items m n h

/-- Witness for C3: rendering two scored symbols is at least as long as
rendering one. -/
theorem buildContextFromSymbols_length_mono_witness :
    (buildContextFromSymbols envW (itemsW3.take 1)).length ≤
      (buildContextFromSymbols envW (itemsW3.take 2)).length :=
  buildContextFromSymbols_length_mono envW itemsW3 1 2 (by decide)

theorem bsLoop_exit (f : Nat → String) (T lo hiP : Nat) (best : String)
    (h : ¬ lo < hiP) : bsLoop f T lo hiP best = best := by
  rw [bsLoop]
  simp [h]

theorem bsLoop_step_fits (f : Nat → String) (T lo hiP : Nat) (best : String)
    (h : lo < hiP) (hf : (f ((lo + hiP - 1) / 2)).length / 4 ≤ T) :
    bsLoop f T lo hiP best =
      bsLoop f T ((lo + hiP - 1) / 2 + 1) hiP (f ((lo + hiP - 1) / 2)) := by
  rw [bsLoop]
  simp [h, hf]

theorem bsLoop_step_nofits (f : Nat → String) (T lo hiP : Nat) (best : String)
    (h : lo < hiP) (hf : ¬ (f ((lo + hiP - 1) / 2)).length / 4 ≤ T) :
    bsLoop f T lo hiP best = bsLoop f T lo ((lo + hiP - 1) / 2) best := by
  rw [bsLoop]
  simp [h, hf]

theorem bsLoop_correct (f : Nat → String) (T N : Nat)
    (hmono : ∀ a b, a ≤ b → (f a).length ≤ (f b).length)
    (hfits0 : (f 0).length / 4 ≤ T) :
    ∀ (k lo hiP : Nat) (best : String), hiP - lo ≤ k → lo ≤ hiP → hiP ≤ N + 1 →
      (lo = 0 → best = "") →
      (∀ m, m + 1 = lo → best = f m ∧ (f m).length / 4 ≤ T) →
      (hiP ≤ N → T < (f hiP).length / 4) →
      ∃ m, m ≤ N ∧ bsLoop f T lo hiP best = f m ∧ (f m).length / 4 ≤ T ∧
        ∀ m2, m < m2 → m2 ≤ N → T < (f m2).length / 4 := by
  intro k
  induction k with
  | zero =>
    intro lo hiP best hk hlh hhN h0 hbest hhi
    have heq : lo = hiP := by omega
    subst heq
    rw [bsLoop_exit f T lo lo best (by omega)]
    cases lo with
    | zero =>
      exact absurd (hhi (by omega)) (by omega)
    | succ m =>
      obtain ⟨hb, hfit⟩ := hbest m rfl
      refine ⟨m, by omega, hb, hfit, ?_⟩
      intro m2 hm2 hm2N
      have h1 : T < (f (m + 1)).length / 4 := hhi (by omega)
      have h2 : (f (m + 1)).length ≤ (f m2).length := hmono (m + 1) m2 (by omega)
      have h3 : (f (m + 1)).length / 4 ≤ (f m2).length / 4 := Nat.div_le_div_right h2
      omega
  | succ k ih =>
    intro lo hiP best hk hlh hhN h0 hbest hhi
    by_cases hlt : lo < hiP
    · have hmid1 : lo ≤ (lo + hiP - 1) / 2 := by omega
      have hmid2 : (lo + hiP - 1) / 2 < hiP := by omega
      by_cases hf : (f ((lo + hiP - 1) / 2)).length / 4 ≤ T
      · rw [bsLoop_step_fits f T lo hiP best hlt hf]
        refine ih ((lo + hiP - 1) / 2 + 1) hiP (f ((lo + hiP - 1) / 2))
          (by omega) (by omega) hhN (by omega) ?_ hhi
        intro m hm
        have : m = (lo + hiP - 1) / 2 := by omega
        subst this
        exact ⟨rfl, hf⟩
      · rw [bsLoop_step_nofits f T lo hiP best hlt hf]
        refine ih lo ((lo + hiP - 1) / 2) best (by omega) (by omega) (by omega)
          h0 hbest ?_
        intro _
        omega
    · have heq : lo = hiP := by omega
      subst heq
      rw [bsLoop_exit f T lo lo best (by omega)]
      cases lo with
      | zero =>
        exact absurd (hhi (by omega)) (by omega)
      | succ m =>
        obtain ⟨hb, hfit⟩ := hbest m rfl
        refine ⟨m, by omega, hb, hfit, ?_⟩
        intro m2 hm2 hm2N
        have h1 : T < (f (m + 1)).length / 4 := hhi (by omega)
        have h2 : (f (m + 1)).length ≤ (f m2).length := hmono (m + 1) m2 (by omega)
        have h3 : (f (m + 1)).length / 4 ≤ (f m2).length / 4 := Nat.div_le_div_right h2
        omega

theorem buildContextFromSymbols_ne_empty (env : CtxEnv) (l : List (SymbolKey × Rat)) :
    buildContextFromSymbols env l ≠ "" := by
  intro h
  have h1 : (buildContextFromSymbols env l).length = 0 := by rw [h]; rfl
  unfold buildContextFromSymbols ctxOverview at h1
  simp only [String.length_append] at h1
  have h2 : ("Repository: " : String).length = 12 := by decide
  omega

/-- Claim C2 (amended): whenever the score-sorted symbol list is nonempty
and the empty prefix (the repository overview alone) renders within the
budget, `_binary_search_context` returns the rendering of a maximal
prefix: its estimated token count (length divided by four) is at most
the budget, and no strictly longer prefix renders within the budget. -/
theorem binarySearchContext_budget_maximal (env : CtxEnv)
    (items : List (SymbolKey × Rat)) (T : Nat) (files : List String)
    (hne : items ≠ [])
    (h0 : (buildContextFromSymbols env (items.take 0)).length / 4 ≤ T) :
    ∃ m, m ≤ items.length ∧
      binarySearchContext env items T files = buildContextFromSymbols env (items.take m) ∧
      (buildContextFromSymbols env (items.take m)).length / 4 ≤ T ∧
      ∀ m2, m < m2 → m2 ≤ items.length →
        T < (buildContextFromSymbols env (items.take m2)).length / 4 := by
  obtain ⟨m, hmN, heq, hfit, hmax⟩ :=
    bsLoop_correct (fun m => buildContextFromSymbols env (items.take m)) T items.length
      (fun a b h => bcsLen_take_mono env items a b h) h0
      (items.length + 1) 0 (items.length + 1) ""
      (by omega) (by omega) (by omega)
      (fun _ => rfl)
      (fun m hm => absurd hm (Nat.succ_ne_zero m))
      (fun h => absurd h (by omega))
  refine ⟨m, hmN, ?_, hfit, hmax⟩
  have hbne : bsLoop (fun m => buildContextFromSymbols env (items.take m)) T 0
      (items.length + 1) "" ≠ "" := by
    rw [heq]
    exact buildContextFromSymbols_ne_empty env (items.take m)
  unfold binarySearchContext
  rw [if_neg (by simpa using hne)]
  show (if bsLoop (fun m => buildContextFromSymbols env (items.take m)) T 0
      (items.length + 1) "" = "" then buildBasicContext env (files.take 2)
    else bsLoop (fun m => buildContextFromSymbols env (items.take m)) T 0
      (items.length + 1) "") = buildContextFromSymbols env (items.take m)
  rw [if_neg hbne, heq]

/-- Witness for the amended C2: a singleton symbol list under a generous
budget yields a maximal in-budget prefix. -/
theorem binarySearchContext_budget_maximal_witness :
    ∃ m, m ≤ itemsW.length ∧
      binarySearchContext envW itemsW 100 [] = buildContextFromSymbols envW (itemsW.take m) ∧
      (buildContextFromSymbols envW (itemsW.take m)).length / 4 ≤ 100 ∧
      ∀ m2, m < m2 → m2 ≤ itemsW.length →
        100 < (buildContextFromSymbols envW (itemsW.take m2)).length / 4 :=
  binarySearchContext_budget_maximal envW itemsW 100 [] (by decide) (by decide)

/-- Counterexample for C2 as stated: with an empty score-sorted symbol
list and budget zero, `_binary_search_context` returns the unbudgeted
basic fallback rendering, whose token estimate exceeds the budget. -/
theorem binarySearchContext_budget_counterexample :
    ¬ ((binarySearchContext envC2 [] 0 ["a.py"]).length / 4 ≤ 0) := by
  decide

theorem lookupA_eraseA_self {α : Type} (l : List (String × α)) (key : String) :
    lookupA (eraseA l key) key = none := by
  induction l with
  | nil => rfl
  | cons hd tl ih =>
    obtain ⟨k, w⟩ := hd
    by_cases hk : k = key
    · simpa [eraseA, hk] using ih
    · simpa [eraseA, lookupA, hk] using ih

theorem checkFilesLoop_iff (env : MtimeEnv) (fm : List (String × Int))
    (files : List String) :
    checkFilesLoop env fm files = true ↔
      ∀ fp ∈ files, ∃ t, env.getmtime fp = some t ∧ lookupA fm fp = some t := by
  induction files with
  | nil => simp [checkFilesLoop]
  | cons fp rest ih =>
    constructor
    · intro h
      cases hm : env.getmtime fp with
      | none => simp only [checkFilesLoop, hm, Bool.false_eq_true] at h
      | some cur =>
        cases hl : lookupA fm fp with
        | none => simp only [checkFilesLoop, hm, hl, Bool.false_eq_true] at h
        | some t =>
          simp only [checkFilesLoop, hm, hl] at h
          by_cases hne : t ≠ cur
          · rw [if_pos hne] at h
            exact absurd h (by simp)
          · push_neg at hne
            subst hne
            rw [if_neg (by simp : ¬ t ≠ t)] at h
            intro fp2 hfp2
            rcases List.mem_cons.mp hfp2 with h2 | h2
            · subst h2
              exact ⟨t, hm, hl⟩
            · exact (ih.mp h) fp2 h2
    · intro h
      obtain ⟨t, hm, hl⟩ := h fp (List.mem_cons_self fp rest)
      simp only [checkFilesLoop, hm, hl]
      rw [if_neg (by simp)]
      exact ih.mpr (fun fp2 h2 => h fp2 (List.mem_cons_of_mem fp h2))

/-- Claim C7 (amended): `get_cached_context` returns the stored text if
and only if every file recorded at cache-write time still exists and its
current modification time equals the binding in the manager-wide
`file_mtimes` dict — the time most recently recorded for that file by
any `cache_context` call, not the per-entry value stored when this entry
was written (the `mtimes` field of the entry is never consulted); any
failing file evicts the whole entry and the lookup reports absence,
while a successful lookup leaves the state unchanged. -/
theorem getCachedContext_validity (env : MtimeEnv) (st : CMState) (key : String) :
    (∀ ctx, (getCachedContext env st key).1 = some ctx ↔
      ∃ cd, lookupA st.context_cache key = some cd ∧ ctx = cd.context ∧
        ∀ fp ∈ cd.files, ∃ t, env.getmtime fp = some t ∧
          lookupA st.file_mtimes fp = some t) ∧
    (∀ cd, lookupA st.context_cache key = some cd →
      (getCachedContext env st key).1 = none →
      lookupA (getCachedContext env st key).2.context_cache key = none) ∧
    ((getCachedContext env st key).1 = none ∨ (getCachedContext env st key).2 = st) := by
  cases hk : lookupA st.context_cache key with
  | none =>
    have hres : getCachedContext env st key = (none, st) := by
      simp [getCachedContext, hk]
    refine ⟨fun ctx => ?_, fun cd hcd => absurd hcd (by simp), Or.inl (by rw [hres])⟩
    rw [hres]
    constructor
    · intro h; exact absurd h (by simp)
    · rintro ⟨cd, hcd, -⟩
      exact Option.noConfusion hcd
  | some cd =>
    by_cases hchk : checkFilesLoop env st.file_mtimes cd.files = true
    · have hres : getCachedContext env st key = (some cd.context, st) := by
        simp [getCachedContext, hk, hchk]
      refine ⟨fun ctx => ?_, fun cd2 hcd2 hnone => ?_, Or.inr (by rw [hres])⟩
      · rw [hres]
        constructor
        · intro h
          exact ⟨cd, rfl, (Option.some_injective _ h).symm,
            (checkFilesLoop_iff env _ _).mp hchk⟩
        · rintro ⟨cd2, hcd2, hctx, -⟩
          have hcd2e : cd = cd2 := Option.some_injective _ hcd2
          subst hcd2e
          rw [hctx]
      · rw [hres] at hnone
        exact Option.noConfusion hnone
    · have hres : getCachedContext env st key =
          (none, { st with context_cache := eraseA st.context_cache key }) := by
        simp [getCachedContext, hk, hchk]
      refine ⟨fun ctx => ?_, fun cd2 hcd2 hnone => ?_, Or.inl (by rw [hres])⟩
      · rw [hres]
        constructor
        · intro h; exact absurd h (by simp)
        · rintro ⟨cd2, hcd2, -, hall⟩
          have hcd2e : cd = cd2 := Option.some_injective _ hcd2
          subst hcd2e
          exact absurd ((checkFilesLoop_iff env _ _).mpr hall) hchk
      · rw [hres]
        exact lookupA_eraseA_self st.context_cache key

/-- Witness for the amended C7: a fresh single-entry cache whose file
still has its recorded mtime returns the stored text. -/
theorem getCachedContext_validity_witness :
    (getCachedContext mtimeEnv1
      (cacheContext mtimeEnv1 ⟨[], []⟩ "A" "ctxA" ["f.py"]) "A").1 = some "ctxA" :=
  ((getCachedContext_validity mtimeEnv1
      (cacheContext mtimeEnv1 ⟨[], []⟩ "A" "ctxA" ["f.py"]) "A").1 "ctxA").mpr
    ⟨⟨"ctxA", ["f.py"], [("f.py", 1)]⟩, by decide, rfl,
      fun fp hfp => by
        have hfp2 : fp = "f.py" := List.mem_singleton.mp hfp
        subst hfp2
        exact ⟨1, rfl, by decide⟩⟩

/-- Counterexample for C7 as stated: after entry `A` was written for
`f.py` at mtime 1, the file changed to mtime 2 and entry `B` recorded
the new time in the manager-wide dict; the lookup of `A` then succeeds
even though the modification time stored for `f.py` when `A` was written
(1) differs from the current one (2) — the claimed per-entry comparison
is not what the code does. -/
theorem getCachedContext_counterexample :
    (getCachedContext mtimeEnv2 cmStateAB "A").1 = some "ctxA" ∧
    (lookupA cmStateAB.context_cache "A").map CacheEntry.mtimes = some [("f.py", 1)] ∧
    mtimeEnv2.getmtime "f.py" = some 2 :=
  ⟨by decide, by decide, rfl⟩

theorem pyJoin_empty_cons (x : String) (l : List String) :
    pyJoin "" (x :: l) = x ++ pyJoin "" l := by
  cases l with
  | nil => simp [pyJoin]
  | cons y r => simp [pyJoin, String.append_assoc]

theorem bcFilesLoop_truncates (env : CtxEnv) (budget : Nat) :
    ∀ (pre : List String) (current : Nat) (f : String) (post : List String),
      allFitB env budget pre current = true →
      cumAfter env pre current < budget →
      budget < cumAfter env pre current + (fileSection env f).length / 4 →
      bcFilesLoop env budget (pre ++ f :: post) current =
        pyJoin "" (pre.map (fileSection env)) ++
          truncSection env f (budget - cumAfter env pre current) := by
  intro pre
  induction pre with
  | nil =>
    intro current f post _ hcur hover
    simp only [cumAfter, List.map_nil, List.sum_nil, Nat.add_zero] at hcur hover
    simp only [List.nil_append, bcFilesLoop]
    rw [if_neg (by omega), if_neg (by omega)]
    simp only [cumAfter, List.map_nil, List.sum_nil, Nat.add_zero, pyJoin]
    exact (String.empty_append _).symm
  | cons fp rest ih =>
    intro current f post hfit hcur hover
    simp only [allFitB, Bool.and_eq_true, decide_eq_true_eq] at hfit
    obtain ⟨⟨h1, h2⟩, h3⟩ := hfit
    have hshift : cumAfter env (fp :: rest) current =
        cumAfter env rest (current + (fileSection env fp).length / 4) := by
      simp only [cumAfter, List.map_cons, List.sum_cons]
      omega
    rw [hshift] at hcur hover ⊢
    simp only [List.cons_append, bcFilesLoop]
    rw [if_neg (by omega), if_pos h2, List.append_eq,
      ih (current + (fileSection env fp).length / 4) f post h3 hcur hover,
      List.map_cons, pyJoin_empty_cons, String.append_assoc]

/-- Claim C8 (amended): for an explicit file set of at most three files,
`get_context_for_message` dispatches to `build_context`, which renders
the full raw contents of the files in order while the accumulated token
estimate stays within the budget; the first file considered while the
estimate is still strictly below the budget whose section would push the
estimate over the budget is truncated to the remaining character
allowance (four characters per remaining token), tagged as truncated in
its header, and no further file is appended after it.  (When the
estimate has already reached the budget before a file is considered, the
loop stops without emitting a truncated section for it.) -/
theorem buildContext_truncates (env : CtxEnv) (budget : Nat) (pre : List String)
    (f : String) (post : List String) (msg : String)
    (h3 : (pre ++ f :: post).length ≤ 3)
    (hfit : allFitB env budget pre ((bcOverview env).length / 4) = true)
    (hcur : cumAfter env pre ((bcOverview env).length / 4) < budget)
    (hover : budget <
      cumAfter env pre ((bcOverview env).length / 4) + (fileSection env f).length / 4) :
    getContextForMessage env (pre ++ f :: post) msg budget =
      Except.ok (bcOverview env ++ (pyJoin "" (pre.map (fileSection env)) ++
        truncSection env f
          (budget - cumAfter env pre ((bcOverview env).length / 4)))) := by
  have hne : ¬ ((pre ++ f :: post).isEmpty = true) := by
    simp
  unfold getContextForMessage
  rw [if_neg hne, if_pos h3]
  unfold buildContext
  rw [bcFilesLoop_truncates env budget pre ((bcOverview env).length / 4) f post
    hfit hcur hover]

/-- Witness for the amended C8: with a 58-character overview (14 tokens)
and a budget of 20 tokens, the single 30-character (7-token) file
section overflows and is truncated to the remaining 6 tokens worth of
characters. -/
theorem buildContext_truncates_witness :
    getContextForMessage envC8 ([] ++ "a.py" :: []) "" 20 =
      Except.ok (bcOverview envC8 ++ (pyJoin "" (([] : List String).map (fileSection envC8)) ++
        truncSection envC8 "a.py"
          (20 - cumAfter envC8 [] ((bcOverview envC8).length / 4)))) :=
  buildContext_truncates envC8 20 [] "a.py" [] ""
    (by decide) (by decide) (by decide) (by decide)

/-- Counterexample for C8 as stated: with the budget already exhausted by
the overview alone (budget 0), the single explicit file is not rendered
at all — the output is the bare overview, with no section tagged as
truncated, although the claim requires the first overflowing file to
appear truncated and tagged. -/
theorem buildContext_no_trunc_when_exhausted :
    getContextForMessage envC8 ["a.py"] "" 0 = Except.ok (bcOverview envC8) ∧
    strContains "(truncated)".toList (bcOverview envC8).toList = false ∧
    strContains "a.py".toList (bcOverview envC8).toList = false :=
  ⟨by rfl, by decide, by decide⟩
